import Mathlib

/-!
Verification development for the Crunchyroll extractor core
(src/yt_dlp/extractor/crunchyroll.py): audio-language version resolution,
multi-version merge, and stream-format extraction.

The Python code is shallowly embedded: Python dicts become insertion-ordered
association lists with Python dict semantics (assignment overwrites in place,
otherwise appends; `dict.update` is a left fold of assignments; `dict.pop`
removes an entry; `dict.popitem` removes the last entry), JSON-ish scalar
values become the inductive `PyValue`, and the external collaborators
(`_extract_m3u8_formats`, `_extract_mpd_formats`, `_m3u8_meta_format`, the
HTTP fetch, and `LangSelector.keep_table_matches`) are parameters.
-/

set_option maxHeartbeats 1000000

/-- Insertion-ordered association list with string keys, modelling a Python
`dict`. Keys are unique in every dict built by `dictSet`. -/
abbrev PyDict (β : Type) := List (String × β)

/-- Python `d.get(k)` / `d[k]`: first entry with the given key. -/
def dictGet? {β : Type} (d : PyDict β) (k : String) : Option β :=
  match d with
  | [] => none
  | p :: rest => if p.1 = k then some p.2 else dictGet? rest k

/-- Python `d[k] = v`: overwrite in place when the key is present (keeping its
position), otherwise append at the end. -/
def dictSet {β : Type} (d : PyDict β) (k : String) (v : β) : PyDict β :=
  if (dictGet? d k).isSome then
    d.map (fun p => if p.1 = k then (p.1, v) else p)
  else d ++ [(k, v)]

/-- Python `d.update(other)`: assign every entry of `other` in order. -/
def dictUpdate {β : Type} (d other : PyDict β) : PyDict β :=
  other.foldl (fun acc p => dictSet acc p.1 p.2) d

/-- Removal of a key, as performed by Python `d.pop(k, default)`. -/
def dictRemove {β : Type} (d : PyDict β) (k : String) : PyDict β :=
  d.filter (fun p => decide (p.1 ≠ k))

/-- Well-formedness of a dict: its keys are pairwise distinct.  Every Python
dict satisfies this invariant. -/
abbrev DictWF {β : Type} (d : PyDict β) : Prop := (d.map Prod.fst).Nodup

/-- Concatenation of the lists produced for each element, in order; used to
model Python loops that extend one list while iterating another. -/
def flatMapL {α β : Type} (f : α → List β) : List α → List β
  | [] => []
  | a :: l => f a ++ flatMapL f l

/-- Model of Python `str.lower()` (and of `str.casefold()`, which agrees with
it on the ASCII language codes this extractor handles). -/
def strLower (s : String) : String := String.mk (s.data.map Char.toLower)

/-- Model of Python `str.strip()`: drop spaces from both ends. -/
def strTrim (s : String) : String :=
  String.mk
    (((s.data.dropWhile (fun c => decide (c = ' '))).reverse.dropWhile
      (fun c => decide (c = ' '))).reverse)

/-- Model of Python `str.endswith(t)` / `String.endsWith`: the last characters
equal `t`. -/
def strEndsWith (s t : String) : Bool :=
  decide (t.data = s.data.drop (s.data.length - t.data.length))

/-- Index of the first occurrence of `x`, as Python `list.index` computes it
(`none` models a `ValueError`). -/
def listIndexOf (x : String) : List String → Option Nat
  | [] => none
  | y :: l => if y = x then some 0 else (listIndexOf x l).map (fun n => n + 1)

/-- Modelled from the spec: the `qualities` helper (from `yt_dlp.utils`, not
under src/) that `_extract_formats` applies to the reversed requested-hardsub
list.  Per the spec, every rendition receives a numeric quality rank computed
from the position of its hardsub language within the reversed
requested-hardsub-language list, with untagged/unrequested languages ranked
lowest; the rank of a listed id is its index in the list, and an absent id
ranks `-1`. -/
def qualityRank (quality_ids : List String) (qid : String) : Int :=
  match listIndexOf qid quality_ids with
  | some i => (i : Int)
  | none => -1

/-- Scalar-or-structured metadata values of the info dicts.  `vlist` stands
for the structured (list/dict) values, which are not `typing.Hashable` in
Python; the other constructors model hashable primitives. -/
inductive PyValue where
  | vnull
  | vstr (s : String)
  | vint (n : Int)
  | vlist (l : List String)
  deriving DecidableEq

/-- Whether a value `isinstance(value, typing.Hashable)` holds: everything but
the structured `vlist` values. -/
def hashableV : PyValue → Bool
  | PyValue.vlist _ => false
  | _ => true

/-- A format entry: a Python dict of fields such as `url`, `acodec`,
`language`, `quality`. -/
abbrev Fmt := PyDict PyValue

/-- A normalized result produced by `_extract_version` and merged by
`_extract_versions_and_merge_results`.  In Python this is a single dict; the
`formats` list and `subtitles` dict are kept as separate components here, and
the remaining scalar items are `fields`.  Both the `formats` and `subtitles`
entries hold a list/dict, so they are non-hashable and are always discarded by
the `is_attribute_hashable` filter, exactly like the `vlist` fields. -/
structure InfoResult where
  fields : PyDict PyValue
  formats : List Fmt
  subtitles : PyDict PyValue
  deriving DecidableEq

/-- One stream descriptor inside the manifest: its `hardsub_locale` and
delivery `url` (an absent or empty url is the falsy case filtered out by
`traverse_obj(streams, lambda _, v: v['url'])`). -/
structure StreamItem where
  hardsub_locale : Option String
  url : String
  deriving DecidableEq

/-- The stream-manifest response as `_extract_formats` consumes it: the
mapping from stream-type name to descriptors (the concatenated `dict.items()`
of `streams` and `data[0]`, in manifest order), and the declared overall
`audio_locale`. -/
structure StreamResponse where
  streams : List (String × List StreamItem)
  audio_locale : Option String
  deriving DecidableEq

/-- One value of the `available_formats` dict:
`(stream_type, format_id, hardsub_lang, stream_url)`. -/
structure AvailEntry where
  stream_type : String
  format_id : String
  hardsub_lang : String
  url : String
  deriving DecidableEq

/-- Configuration and external collaborators of `_extract_formats`:
`formatArgs`/`hardsubArgs` are the `format`/`hardsub` extractor arguments
(already lowercased by the configuration layer), `resolveHls` is
`_extract_m3u8_formats(url, m3u8_id)`, `metaFormat` is
`_m3u8_meta_format(url, m3u8_id)`, and `resolveDash` is
`_extract_mpd_formats(url, mpd_id)`. -/
structure Cfg where
  formatArgs : List String
  hardsubArgs : List String
  resolveHls : String → String → List Fmt
  metaFormat : String → String → Fmt
  resolveDash : String → String → List Fmt

/-- Python `stream.get('hardsub_locale') or ''`. -/
def hardsubOf (s : StreamItem) : String :=
  match s.hardsub_locale with
  | some l => l
  | none => ""

/-- The `join_nonempty(stream_type, format_field(stream, 'hardsub_locale',
'hardsub-%s'))` format id. -/
def mkFormatId (st : String) (hl : String) : String :=
  if hl = "" then st else st ++ "-hardsub-" ++ hl

/-- The `available_formats` value built for one surviving stream. -/
def availEntry (st : String) (s : StreamItem) : AvailEntry :=
  { stream_type := st, format_id := mkFormatId st (hardsubOf s),
    hardsub_lang := hardsubOf s, url := s.url }

/-- The `available_formats` dict: iterate the manifest mapping in order, skip
stream types outside the requested set, skip descriptors with a falsy url, and
assign `available_formats[hardsub_lang] = (stream_type, format_id,
hardsub_lang, stream['url'])`. -/
def availableFormats (requested : List String) (sl : List (String × List StreamItem)) :
    PyDict AvailEntry :=
  sl.foldl (fun acc p =>
    if p.1 ∈ requested then
      (p.2.filter (fun s => decide (s.url ≠ ""))).foldl
        (fun acc2 s => dictSet acc2 (hardsubOf s) (availEntry p.1 s)) acc
    else acc) []

/-- The descriptors that survive the stream-type and non-empty-url filters of
`_extract_formats`, paired with their stream type, in manifest order. -/
def survivingStreams (requested : List String) (sl : List (String × List StreamItem)) :
    List (String × StreamItem) :=
  flatMapL (fun p =>
    if p.1 ∈ requested then
      (p.2.filter (fun s => decide (s.url ≠ ""))).map (fun s => (p.1, s))
    else []) sl

/-- Python `self._configuration_arg('format') or ['adaptive_hls']`. -/
def requestedFormats (cfg : Cfg) : List String :=
  if cfg.formatArgs = [] then ["adaptive_hls"] else cfg.formatArgs

/-- The requested hardsub languages after the `'none' -> ''` normalization:
`[('' if val == 'none' else val) for val in (arg or ['none'])]`. -/
def requestedHardsubs (cfg : Cfg) : List String :=
  (if cfg.hardsubArgs = [] then ["none"] else cfg.hardsubArgs).map
    (fun v => if v = "none" then "" else v)

/-- The `full_format_langs` set: the requested set when an untagged stream is
available and `all` was not requested, otherwise the lowercased available
hardsub languages. -/
def fullFormatLangs (requested_hardsubs : List String) (avail : PyDict AvailEntry) :
    List String :=
  if (dictGet? avail "").isSome ∧ "all" ∉ requested_hardsubs then requested_hardsubs
  else (avail.map Prod.fst).map strLower

/-- The value Python stores when assigning `f['language'] = audio_locale`
(`None` when the manifest declares no audio locale). -/
def localeValue : Option String → PyValue
  | some s => PyValue.vstr s
  | none => PyValue.vnull

/-- The per-format tagging loop body: `if f.get('acodec') != 'none':
f['language'] = audio_locale` followed by `f['quality'] = ...`. -/
def tagFormat (audio_locale : Option String) (q : Int) (f : Fmt) : Fmt :=
  dictSet
    (if dictGet? f "acodec" = some (PyValue.vstr "none") then f
     else dictSet f "language" (localeValue audio_locale))
    "quality" (PyValue.vint q)

/-- The untagged expansion of one `available_formats` entry: HLS stream types
resolve the adaptive playlist when the hardsub language is in
`full_format_langs` and otherwise synthesize exactly one coarse meta format;
DASH stream types always resolve the manifest; unknown stream types are
skipped with a warning. -/
def expandRaw (cfg : Cfg) (fl : List String) (e : AvailEntry) : List Fmt :=
  if strEndsWith e.stream_type "hls" then
    if strLower e.hardsub_lang ∈ fl then cfg.resolveHls e.url e.format_id
    else [cfg.metaFormat e.url e.format_id]
  else if strEndsWith e.stream_type "dash" then
    cfg.resolveDash e.url e.format_id
  else []

/-- The quality rank assigned to every rendition of an entry:
`qualities(requested_hardsubs[::-1])(hardsub_lang.lower())`. -/
def entryQuality (cfg : Cfg) (e : AvailEntry) : Int :=
  qualityRank (requestedHardsubs cfg).reverse (strLower e.hardsub_lang)

/-- All formats contributed by one `available_formats` entry, tagged with the
manifest audio locale and the hardsub quality rank. -/
def entryFormats (cfg : Cfg) (resp : StreamResponse) (e : AvailEntry) : List Fmt :=
  (expandRaw cfg
      (fullFormatLangs (requestedHardsubs cfg)
        (availableFormats (requestedFormats cfg) resp.streams)) e).map
    (tagFormat resp.audio_locale (entryQuality cfg e))

/-- `_extract_formats`: iterate `available_formats.values()` in dict order and
collect every entry's tagged renditions. -/
def extract_formats (cfg : Cfg) (resp : StreamResponse) : List Fmt :=
  flatMapL (entryFormats cfg resp)
    ((availableFormats (requestedFormats cfg) resp.streams).map Prod.snd)

/-- One entry of `<object>_metadata.versions`: its `guid` and its
`audio_locales`/`audio_locale` language information. -/
structure VersionDescriptor where
  guid : Option String
  audio_locales : List String
  audio_locale : Option String
  deriving DecidableEq

/-- The `lang_formatter`: `v.casefold().strip()`. -/
def fmtLang (s : String) : String := strTrim (strLower s)

/-- Insertion into a Python-set model that keeps first-seen order. -/
def setInsert (s : List String) (x : String) : List String :=
  if x ∈ s then s else s ++ [x]

/-- `_get_audio_langs_from_data`: the case-folded set of the `audio_locales`
entries, together with the formatted `audio_locale` when it is non-empty
(`wrap_in_list` drops a falsy formatted value). -/
def get_audio_langs_from_data (d : VersionDescriptor) : List String :=
  let base := d.audio_locales.foldl (fun acc v => setInsert acc (fmtLang v)) []
  match d.audio_locale with
  | some v => if fmtLang v = "" then base else setInsert base (fmtLang v)
  | none => base

/-- The `CrunchyrollBaseIE._DEFAULT_LANG` sentinel. -/
def defaultLang : String := "@@default"

/-- The rows one version descriptor contributes to the language table: none
when its `guid` is falsy, one `(guid, None)` row when it carries no language
information, else one row per language. -/
def descriptorRows (d : VersionDescriptor) : List (String × Option String) :=
  match d.guid with
  | none => []
  | some g =>
    if g = "" then []
    else
      match get_audio_langs_from_data d with
      | [] => [(g, (none : Option String))]
      | langs => langs.map (fun l => (g, some l))

/-- The `lang_table` of `_get_responses_for_langs`: the rows of every version
descriptor followed by the appended `(internal_id, default_lang)` row. -/
def buildLangTable (internal_id : String) (versions : List VersionDescriptor) :
    List (String × Option String) :=
  flatMapL descriptorRows versions ++ [(internal_id, some defaultLang)]

/-- A fetched API response, reduced to what the resolution core inspects: the
version descriptors reachable through `<type>_metadata.versions` (empty when
the metadata carries none) and an opaque payload standing for the rest of the
JSON object. -/
structure Response where
  versions : List VersionDescriptor
  payload : Int
  deriving DecidableEq

/-- `_get_responses_for_langs`.  `fetch` is the `get_response_by_id` boundary
(`none` models a not-found response) and `keep_table_matches` abstracts
`LangSelector.keep_table_matches` (from `yt_dlp.utils`, not under src/); the
function returns `none` when the initial fetch of `internal_id` fails (the
fatal region-lock error) and otherwise the `results` dict exactly as the
source builds it: `results[vid] = requested_response` for every requested id,
the default response being reused for `internal_id`. -/
def get_responses_for_langs (internal_id : String) (fetch : String → Option Response)
    (keep_table_matches : List (String × Option String) → List String) :
    Option (PyDict (Option Response)) :=
  match fetch internal_id with
  | none => none
  | some default_response =>
    let table := buildLangTable internal_id default_response.versions
    let requested_ids := keep_table_matches table
    some (requested_ids.foldl (fun acc vid =>
      dictSet acc vid (if vid = internal_id then some default_response else fetch vid)) [])

/-- The items of a result that pass `is_attribute_hashable` (string keys are
always hashable; the value must be too). -/
def hashableItems (fields : PyDict PyValue) : List (String × PyValue) :=
  fields.filter (fun p => hashableV p.2)

/-- `dict(version_as_set - result_as_set)`: the hashable items of the
candidate that are not hashable items of the baseline, materialized in
candidate order (Python materializes the set in unspecified order; the dict
content is identical). -/
def versionDifferences (baseFields candFields : PyDict PyValue) : PyDict PyValue :=
  (hashableItems candFields).filter (fun p => decide (p ∉ hashableItems baseFields))

/-- One iteration of the merge loop of `_extract_versions_and_merge_results`:
extract the version, stamp its formats with the differences against the main
result, and append its formats and subtitles.  A `none` response models the
`AttributeError` crash `extract_version` raises on a not-found response. -/
def mergeStep (lang : String) (primFields : PyDict PyValue)
    (ev : String → String → Response → InfoResult)
    (acc : Option InfoResult) (p : String × Option Response) : Option InfoResult :=
  match acc, p.2 with
  | some r, some resp =>
    let version := ev lang p.1 resp
    let diffs := versionDifferences primFields version.fields
    some { fields := r.fields,
           formats := r.formats ++ version.formats.map (fun f => dictUpdate f diffs),
           subtitles := dictUpdate r.subtitles version.subtitles }
  | _, _ => none

/-- Selection of the main response: `responses.pop(internal_id, None)`,
falling back to `responses.popitem()` (the last entry) when `internal_id` is
absent or its stored response is falsy.  `none` models the `KeyError` of
`popitem` on an empty dict or the later crash on a popped not-found
response. -/
def pickPrimary (internal_id : String) (responses : PyDict (Option Response)) :
    Option (String × Response × PyDict (Option Response)) :=
  match dictGet? responses internal_id with
  | some (some r) => some (internal_id, r, dictRemove responses internal_id)
  | _ =>
    let rest := dictRemove responses internal_id
    match rest.getLast? with
    | some (vid, some r) => some (vid, r, rest.dropLast)
    | _ => none

/-- `_extract_versions_and_merge_results`: a single successfully fetched
response short-circuits to its extracted version; otherwise the main response
is chosen, extracted, and every remaining response is merged into it.  `none`
models the crash of `extract_version` on a not-found (`None`) response. -/
def mergeResults (lang internal_id : String) (responses : PyDict (Option Response))
    (ev : String → String → Response → InfoResult) : Option InfoResult :=
  match responses with
  | [(target_id, some target_response)] => some (ev lang target_id target_response)
  | [(_, none)] => none
  | _ =>
    match pickPrimary internal_id responses with
    | none => none
    | some (pid, presp, rest) =>
      let result := ev lang pid presp
      rest.foldl (mergeStep lang result.fields ev) (some result)

/-- The observable outcomes of `CrunchyrollBetaIE._real_extract`. -/
inductive Outcome where
  | fatalVideoNotFound
  | fatalNoLanguages
  | crash
  | ok (r : InfoResult)
  deriving DecidableEq

/-- The resolution core of `CrunchyrollBetaIE._real_extract`: fetch the
requested language responses, fail fatally when the result dict is empty
(the 'None of the requested audio languages were found' error), and otherwise
merge. -/
def real_extract_core (lang internal_id : String) (fetch : String → Option Response)
    (keep_table_matches : List (String × Option String) → List String)
    (ev : String → String → Response → InfoResult) : Outcome :=
  match get_responses_for_langs internal_id fetch keep_table_matches with
  | none => Outcome.fatalVideoNotFound
  | some responses =>
    if responses.isEmpty then Outcome.fatalNoLanguages
    else
      match mergeResults lang internal_id responses ev with
      | some r => Outcome.ok r
      | none => Outcome.crash

/-- The formats one non-primary version contributes to the merged result: its
own formats, each updated with the version differences against the main
result's fields. -/
def stampedFormats (lang : String) (pf : PyDict PyValue)
    (ev : String → String → Response → InfoResult) (q : String × Response) : List Fmt :=
  ((ev lang q.1 q.2).formats).map
    (fun f => dictUpdate f (versionDifferences pf (ev lang q.1 q.2).fields))

/-- The subtitle map after merging the given versions into a starting map,
one `result_subtitles.update(version_subtitles)` per version. -/
def mergedSubtitles (lang : String) (ev : String → String → Response → InfoResult)
    (qs : List (String × Response)) (s0 : PyDict PyValue) : PyDict PyValue :=
  qs.foldl (fun acc q => dictUpdate acc (ev lang q.1 q.2).subtitles) s0

/-- A version descriptor advertising the sibling version `V1` in Japanese. -/
def c1Desc : VersionDescriptor := ⟨some "V1", ["ja-jp"], none⟩

/-- The default response fetched for the requested id `V0`. -/
def c1Resp : Response := ⟨[c1Desc], 0⟩

/-- A fetch boundary where only `V0` exists; the sibling version `V1` is
region-locked (not found). -/
def c1Fetch : String → Option Response := fun id => if id = "V0" then some c1Resp else none

/-- The selection produced by `keep_table_matches` for the selector `ja-jp` on
the table `[(V1, ja-jp), (V0, default)]`: only the `V1` row matches. -/
def c1Sel : List (String × Option String) → List String := fun _ => ["V1"]

/-- A transform for the fetched responses, exposing the opaque payload. -/
def c1Ev : String → String → Response → InfoResult :=
  fun _ _ r => ⟨[("payload", PyValue.vint r.payload)], [], []⟩

/-- Stream collaborators for the C3 scenario: the requested stream types are
an HLS one and a DASH one, no hardsub argument is given, and the DASH manifest
resolves into two renditions. -/
def c3Cfg : Cfg :=
  ⟨["xhls", "xdash"], [],
   fun u _ => [[("src", PyValue.vstr u)]],
   fun u _ => [("meta", PyValue.vstr u)],
   fun u _ => [[("d1", PyValue.vstr u)], [("d2", PyValue.vstr u)]]⟩

/-- A manifest with an untagged HLS stream and an `en-us` hardsub DASH
stream. -/
def c3Resp : StreamResponse :=
  ⟨[("xhls", [⟨none, "u0"⟩]), ("xdash", [⟨some "en-us", "u1"⟩])], none⟩

/-- A transform whose scalar fields, single format, and subtitle entry all
depend on the version id. -/
def c5Ev : String → String → Response → InfoResult :=
  fun _ vid r =>
    ⟨[("id", PyValue.vstr vid), ("n", PyValue.vint r.payload)],
     [[("u", PyValue.vstr vid)]],
     [("loc", PyValue.vstr vid)]⟩

/-- Stream collaborators for the C9 scenario: the adaptive playlist resolves
into one rendition with an audio codec and one video-only rendition that
already carries a language field. -/
def c9Cfg : Cfg :=
  ⟨[], [],
   fun _ _ => [[("acodec", PyValue.vstr "aac")],
               [("acodec", PyValue.vstr "none"), ("language", PyValue.vstr "keep")]],
   fun _ _ => [],
   fun _ _ => []⟩

/-- A manifest with a single untagged adaptive stream and a declared audio
locale. -/
def c9Resp : StreamResponse := ⟨[("adaptive_hls", [⟨none, "u"⟩])], some "ja-JP"⟩

theorem dictGet?_nil {β : Type} (k : String) : dictGet? ([] : PyDict β) k = none := rfl

theorem dictGet?_cons {β : Type} (p : String × β) (tl : PyDict β) (k : String) :
    dictGet? (p :: tl) k = if p.1 = k then some p.2 else dictGet? tl k := rfl

theorem dictGet?_append {β : Type} (d1 d2 : PyDict β) (k : String) :
    dictGet? (d1 ++ d2) k =
      match dictGet? d1 k with
      | some v => some v
      | none => dictGet? d2 k := by
  induction d1 with
  | nil => simp [dictGet?]
  | cons p tl ih =>
    by_cases hp : p.1 = k
    · simp [dictGet?, hp]
    · simp [dictGet?, hp, ih]

theorem dictGet?_map_replace_self {β : Type} (d : PyDict β) (k : String) (v : β)
    (hs : (dictGet? d k).isSome) :
    dictGet? (d.map (fun p => if p.1 = k then (p.1, v) else p)) k = some v := by
  induction d with
  | nil => simp [dictGet?] at hs
  | cons p tl ih =>
    by_cases hp : p.1 = k
    · simp [dictGet?, hp]
    · rw [dictGet?_cons] at hs
      simp only [hp, if_false] at hs
      simp [dictGet?, hp, ih hs]

theorem dictGet?_map_replace_ne {β : Type} (d : PyDict β) (k k' : String) (v : β)
    (h : k' ≠ k) :
    dictGet? (d.map (fun p => if p.1 = k then (p.1, v) else p)) k' = dictGet? d k' := by
  induction d with
  | nil => simp [dictGet?]
  | cons p tl ih =>
    have hkk : ¬ k = k' := fun hc => h hc.symm
    by_cases hp : p.1 = k
    · have hne : p.1 ≠ k' := by rw [hp]; exact fun hc => h hc.symm
      simp [dictGet?, hp, hne, ih, hkk]
    · by_cases hpk : p.1 = k'
      · simp [dictGet?, hp, hpk, h]
      · simp [dictGet?, hp, hpk, ih]

theorem dictGet?_set_self {β : Type} (d : PyDict β) (k : String) (v : β) :
    dictGet? (dictSet d k v) k = some v := by
  by_cases hs : (dictGet? d k).isSome
  · rw [dictSet, if_pos hs]
    exact dictGet?_map_replace_self d k v hs
  · rw [dictSet, if_neg hs, dictGet?_append]
    have hnone : dictGet? d k = none := by
      cases hv : dictGet? d k with
      | some v' => rw [hv] at hs; simp at hs
      | none => rfl
    rw [hnone]
    simp [dictGet?]

theorem dictGet?_set_ne {β : Type} (d : PyDict β) (k k' : String) (v : β) (h : k' ≠ k) :
    dictGet? (dictSet d k v) k' = dictGet? d k' := by
  by_cases hs : (dictGet? d k).isSome
  · rw [dictSet, if_pos hs]
    exact dictGet?_map_replace_ne d k k' v h
  · rw [dictSet, if_neg hs, dictGet?_append]
    cases hv : dictGet? d k' with
    | some v' => rfl
    | none =>
      simp only [dictGet?]
      rw [if_neg (fun hc => h hc.symm)]

theorem dictGet?_set {β : Type} (d : PyDict β) (k k' : String) (v : β) :
    dictGet? (dictSet d k v) k' = if k' = k then some v else dictGet? d k' := by
  by_cases h : k' = k
  · subst h; simp [dictGet?_set_self]
  · simp [h, dictGet?_set_ne d k k' v h]

theorem dictGet?_foldl_set {α β : Type} (key : α → String) (val : α → β) (l : List α) :
    ∀ (d0 : PyDict β) (k : String),
      dictGet? (l.foldl (fun acc a => dictSet acc (key a) (val a)) d0) k =
        match (l.filter (fun a => decide (key a = k))).getLast? with
        | some a => some (val a)
        | none => dictGet? d0 k := by
  induction l with
  | nil => intro d0 k; simp
  | cons a tl ih =>
    intro d0 k
    rw [List.foldl_cons, ih, List.filter_cons]
    by_cases hk : key a = k
    · rw [if_pos (by simp [hk])]
      cases hft : tl.filter (fun a => decide (key a = k)) with
      | nil => simp [dictGet?_set_self, hk]
      | cons b bs =>
        rw [List.getLast?_cons_cons]
        cases hbl : (b :: bs).getLast? with
        | none => rw [List.getLast?_eq_none_iff] at hbl; exact absurd hbl (by simp)
        | some c => simp
    · rw [if_neg (by simp [hk])]
      cases hft : tl.filter (fun a => decide (key a = k)) with
      | nil => simp [dictGet?_set_ne d0 (key a) k (val a) (fun hc => hk hc.symm)]
      | cons b bs =>
        cases hbl : (b :: bs).getLast? with
        | none => rw [List.getLast?_eq_none_iff] at hbl; exact absurd hbl (by simp)
        | some c => simp

theorem dictWF_nil {β : Type} : DictWF ([] : PyDict β) := by simp [DictWF]

theorem dictWF_filter {β : Type} (d : PyDict β) (p : String × β → Bool) (h : DictWF d) :
    DictWF (d.filter p) := by
  exact List.Nodup.sublist (List.Sublist.map Prod.fst (List.filter_sublist d)) h

theorem dictGet?_eq_some_iff_mem {β : Type} (d : PyDict β) (k : String) (v : β)
    (hwf : DictWF d) : dictGet? d k = some v ↔ (k, v) ∈ d := by
  induction d with
  | nil => simp [dictGet?]
  | cons p tl ih =>
    rw [DictWF, List.map_cons, List.nodup_cons] at hwf
    by_cases hp : p.1 = k
    · subst hp
      simp only [dictGet?, if_true, List.mem_cons]
      constructor
      · intro hv
        left
        cases p with
        | mk a b => simp at hv; simp [hv]
      · intro hv
        rcases hv with hv | hv
        · rw [← hv]
        · exfalso
          exact hwf.1 (by simpa using List.mem_map_of_mem Prod.fst hv)
    · simp only [dictGet?, hp, if_false, List.mem_cons]
      rw [ih hwf.2]
      constructor
      · intro hv; right; exact hv
      · intro hv
        rcases hv with hv | hv
        · exfalso; apply hp; rw [← hv]
        · exact hv

theorem filter_key_of_wf {β : Type} (d : PyDict β) (k : String) (hwf : DictWF d) :
    d.filter (fun p => decide (p.1 = k)) =
      match dictGet? d k with
      | some v => [(k, v)]
      | none => [] := by
  induction d with
  | nil => simp [dictGet?]
  | cons p tl ih =>
    rw [DictWF, List.map_cons, List.nodup_cons] at hwf
    rw [List.filter_cons]
    by_cases hp : p.1 = k
    · rw [if_pos (by simp [hp])]
      simp only [dictGet?_cons, if_pos hp]
      have hnone : dictGet? tl k = none := by
        cases hv : dictGet? tl k with
        | none => rfl
        | some v =>
          exfalso
          have hmem : (k, v) ∈ tl := by
            rw [← dictGet?_eq_some_iff_mem tl k v hwf.2]; exact hv
          apply hwf.1
          rw [hp]
          simpa using List.mem_map_of_mem Prod.fst hmem
      have hfil : tl.filter (fun p => decide (p.1 = k)) = [] := by
        rw [ih hwf.2, hnone]
      rw [hfil]
      cases p with
      | mk a b => simp at hp; simp [hp]
    · rw [if_neg (by simp [hp])]
      simp only [dictGet?_cons, if_neg hp]
      exact ih hwf.2

theorem dictGet?_update {β : Type} (d o : PyDict β) (k : String) (hwf : DictWF o) :
    dictGet? (dictUpdate d o) k =
      match dictGet? o k with
      | some v => some v
      | none => dictGet? d k := by
  have h := dictGet?_foldl_set (fun p : String × β => p.1) (fun p => p.2) o d k
  rw [dictUpdate]
  rw [h, filter_key_of_wf o k hwf]
  cases dictGet? o k <;> simp

theorem dictRemove_of_not_mem {β : Type} (d : PyDict β) (k : String)
    (h : dictGet? d k = none) : dictRemove d k = d := by
  induction d with
  | nil => rfl
  | cons p tl ih =>
    rw [dictGet?_cons] at h
    by_cases hp : p.1 = k
    · rw [if_pos hp] at h; exact absurd h (by simp)
    · rw [if_neg hp] at h
      simp only [dictRemove, List.filter_cons]
      rw [if_pos (by simp [hp])]
      rw [show tl.filter (fun p => decide (p.1 ≠ k)) = dictRemove tl k from rfl, ih h]

theorem mem_of_getLast?_eq {α : Type} (l : List α) (a : α) (h : l.getLast? = some a) :
    a ∈ l := by
  induction l with
  | nil => simp at h
  | cons b tl ih =>
    cases tl with
    | nil => simp at h; simp [h]
    | cons c tl2 =>
      rw [List.getLast?_cons_cons] at h
      exact List.mem_cons_of_mem b (ih h)

theorem mem_flatMapL {α β : Type} (f : α → List β) (l : List α) (b : β) :
    b ∈ flatMapL f l ↔ ∃ a ∈ l, b ∈ f a := by
  induction l with
  | nil => simp [flatMapL]
  | cons a tl ih => simp [flatMapL, List.mem_append, ih]

theorem flatMapL_nil {α β : Type} (f : α → List β) : flatMapL f [] = [] := rfl

theorem flatMapL_cons {α β : Type} (f : α → List β) (a : α) (l : List α) :
    flatMapL f (a :: l) = f a ++ flatMapL f l := rfl

theorem availableFormats_foldl (requested : List String)
    (sl : List (String × List StreamItem)) :
    ∀ init : PyDict AvailEntry,
      sl.foldl (fun acc p =>
        if p.1 ∈ requested then
          (p.2.filter (fun s => decide (s.url ≠ ""))).foldl
            (fun acc2 s => dictSet acc2 (hardsubOf s) (availEntry p.1 s)) acc
        else acc) init =
      (survivingStreams requested sl).foldl
        (fun acc q => dictSet acc (hardsubOf q.2) (availEntry q.1 q.2)) init := by
  induction sl with
  | nil => intro init; simp [survivingStreams, flatMapL]
  | cons p tl ih =>
    intro init
    rw [List.foldl_cons, survivingStreams, flatMapL_cons, List.foldl_append]
    by_cases hp : p.1 ∈ requested
    · rw [if_pos hp, if_pos hp, List.foldl_map]
      exact ih _
    · rw [if_neg hp, if_neg hp]
      simpa [survivingStreams] using ih init

theorem availableFormats_eq (requested : List String) (sl : List (String × List StreamItem)) :
    availableFormats requested sl =
      (survivingStreams requested sl).foldl
        (fun acc q => dictSet acc (hardsubOf q.2) (availEntry q.1 q.2)) [] :=
  availableFormats_foldl requested sl []

theorem dictGet?_availableFormats (requested : List String)
    (sl : List (String × List StreamItem)) (k : String) :
    dictGet? (availableFormats requested sl) k =
      match ((survivingStreams requested sl).filter
          (fun q => decide (hardsubOf q.2 = k))).getLast? with
      | some q => some (availEntry q.1 q.2)
      | none => none := by
  rw [availableFormats_eq]
  rw [dictGet?_foldl_set (fun q : String × StreamItem => hardsubOf q.2)
    (fun q => availEntry q.1 q.2) (survivingStreams requested sl) [] k]
  cases ((survivingStreams requested sl).filter
      (fun q => decide (hardsubOf q.2 = k))).getLast? <;> rfl

theorem mem_survivingStreams (requested : List String)
    (sl : List (String × List StreamItem)) (q : String × StreamItem)
    (h : q ∈ survivingStreams requested sl) : q.1 ∈ requested ∧ q.2.url ≠ "" := by
  rw [survivingStreams, mem_flatMapL] at h
  obtain ⟨p, hp, hq⟩ := h
  by_cases hreq : p.1 ∈ requested
  · rw [if_pos hreq] at hq
    rw [List.mem_map] at hq
    obtain ⟨s, hs, rfl⟩ := hq
    rw [List.mem_filter] at hs
    exact ⟨hreq, by simpa using hs.2⟩
  · rw [if_neg hreq] at hq
    simp at hq

theorem availEntry_of_get (requested : List String)
    (sl : List (String × List StreamItem)) (k : String) (e : AvailEntry)
    (h : dictGet? (availableFormats requested sl) k = some e) :
    e.hardsub_lang = k ∧
      ∃ q ∈ survivingStreams requested sl, e = availEntry q.1 q.2 := by
  rw [dictGet?_availableFormats] at h
  cases hft : ((survivingStreams requested sl).filter
      (fun q => decide (hardsubOf q.2 = k))).getLast? with
  | none => rw [hft] at h; simp at h
  | some q =>
    rw [hft] at h
    simp only [Option.some.injEq] at h
    have hqmem := mem_of_getLast?_eq _ q hft
    rw [List.mem_filter] at hqmem
    have hkey : hardsubOf q.2 = k := by simpa using hqmem.2
    constructor
    · rw [← h, availEntry]; exact hkey
    · exact ⟨q, hqmem.1, h.symm⟩

theorem mem_keys_of_get {β : Type} (d : PyDict β) (k : String) (v : β)
    (h : dictGet? d k = some v) : k ∈ d.map Prod.fst := by
  induction d with
  | nil => simp [dictGet?] at h
  | cons p tl ih =>
    rw [dictGet?_cons] at h
    by_cases hp : p.1 = k
    · rw [List.map_cons, hp]; exact List.mem_cons_self k _
    · rw [if_neg hp] at h
      exact List.mem_cons_of_mem _ (ih h)

theorem listIndexOf_eq_none (x : String) (l : List String) (h : x ∉ l) :
    listIndexOf x l = none := by
  induction l with
  | nil => rfl
  | cons y tl ih =>
    rw [List.mem_cons, not_or] at h
    rw [listIndexOf]
    rw [if_neg (fun hc => h.1 hc.symm), ih h.2]
    rfl

theorem listIndexOf_exists_of_mem (x : String) (l : List String) (h : x ∈ l) :
    ∃ i, listIndexOf x l = some i := by
  induction l with
  | nil => simp at h
  | cons y tl ih =>
    by_cases hy : y = x
    · exact ⟨0, by rw [listIndexOf, if_pos hy]⟩
    · rw [List.mem_cons] at h
      rcases h with h | h
      · exact absurd h.symm hy
      · obtain ⟨i, hi⟩ := ih h
        exact ⟨i + 1, by rw [listIndexOf, if_neg hy, hi]; rfl⟩

theorem listIndexOf_lt_length (x : String) (l : List String) (i : Nat)
    (h : listIndexOf x l = some i) : i < l.length := by
  induction l generalizing i with
  | nil => simp [listIndexOf] at h
  | cons y tl ih =>
    rw [listIndexOf] at h
    by_cases hy : y = x
    · rw [if_pos hy] at h
      simp only [Option.some.injEq] at h
      rw [← h, List.length_cons]
      exact Nat.succ_pos _
    · rw [if_neg hy] at h
      cases hj : listIndexOf x tl with
      | none => rw [hj] at h; simp at h
      | some j =>
        rw [hj] at h
        have h2 : j + 1 = i := Option.some.inj h
        rw [← h2, List.length_cons]
        exact Nat.succ_lt_succ (ih j hj)

theorem listIndexOf_append_left (x : String) (l1 l2 : List String) (i : Nat)
    (h : listIndexOf x l1 = some i) : listIndexOf x (l1 ++ l2) = some i := by
  induction l1 generalizing i with
  | nil => simp [listIndexOf] at h
  | cons y tl ih =>
    rw [listIndexOf] at h
    rw [List.cons_append, listIndexOf]
    by_cases hy : y = x
    · rw [if_pos hy] at h ⊢; exact h
    · rw [if_neg hy] at h ⊢
      cases hj : listIndexOf x tl with
      | none => rw [hj] at h; simp at h
      | some j =>
        rw [hj] at h
        rw [ih j hj]
        exact h

theorem listIndexOf_append_right (x : String) (l1 l2 : List String)
    (h : listIndexOf x l1 = none) :
    listIndexOf x (l1 ++ l2) = (listIndexOf x l2).map (fun n => n + l1.length) := by
  induction l1 with
  | nil => simp [listIndexOf]
  | cons y tl ih =>
    rw [listIndexOf] at h
    by_cases hy : y = x
    · rw [if_pos hy] at h; simp at h
    · rw [if_neg hy] at h
      have htl : listIndexOf x tl = none := by
        cases hj : listIndexOf x tl with
        | none => rfl
        | some j => rw [hj] at h; simp at h
      rw [List.cons_append, listIndexOf, if_neg hy, ih htl]
      cases listIndexOf x l2 <;> simp [List.length_cons]
      omega

theorem listIndexOf_reverse (l : List String) (x : String) (i : Nat)
    (hnd : l.Nodup) (h : listIndexOf x l = some i) :
    listIndexOf x l.reverse = some (l.length - 1 - i) := by
  induction l generalizing i with
  | nil => simp [listIndexOf] at h
  | cons y tl ih =>
    rw [List.nodup_cons] at hnd
    rw [List.reverse_cons]
    rw [listIndexOf] at h
    by_cases hy : y = x
    · rw [if_pos hy] at h
      have h0 : (0 : Nat) = i := Option.some.inj h
      have hxtl : x ∉ tl := by rw [← hy]; exact hnd.1
      have hnone : listIndexOf x tl.reverse = none :=
        listIndexOf_eq_none x tl.reverse (by simpa using hxtl)
      rw [listIndexOf_append_right x tl.reverse [y] hnone]
      rw [show listIndexOf x [y] = some 0 from by rw [listIndexOf, if_pos hy]]
      show some (0 + tl.reverse.length) = some ((y :: tl).length - 1 - i)
      rw [List.length_reverse, List.length_cons, ← h0]
      congr 1
      omega
    · rw [if_neg hy] at h
      cases hj : listIndexOf x tl with
      | none => rw [hj] at h; simp at h
      | some j =>
        rw [hj] at h
        have h2 : j + 1 = i := Option.some.inj h
        have hrev := ih j hnd.2 hj
        have hbound := listIndexOf_lt_length x tl j hj
        rw [listIndexOf_append_left x tl.reverse [y] _ hrev]
        congr 1
        rw [List.length_cons, ← h2]
        omega

theorem qualityRank_lowest (l : List String) (x : String) (h : x ∉ l) :
    qualityRank l.reverse x = -1 := by
  rw [qualityRank, listIndexOf_eq_none x l.reverse (by simpa using h)]

theorem qualityRank_nonneg_of_mem (l : List String) (x : String) (h : x ∈ l) :
    0 ≤ qualityRank l.reverse x := by
  obtain ⟨i, hi⟩ := listIndexOf_exists_of_mem x l.reverse (by simpa using h)
  rw [qualityRank, hi]
  exact Int.ofNat_nonneg i

theorem qualityRank_ge_neg_one (l : List String) (x : String) :
    -1 ≤ qualityRank l x := by
  rw [qualityRank]
  cases listIndexOf x l with
  | none => exact le_refl _
  | some i => exact le_trans (by omega) (Int.ofNat_nonneg i)

theorem qualityRank_earlier_gt (l : List String) (a b : String) (ia ib : Nat)
    (hnd : l.Nodup) (ha : listIndexOf a l = some ia) (hb : listIndexOf b l = some ib)
    (hij : ia < ib) : qualityRank l.reverse b < qualityRank l.reverse a := by
  have hra := listIndexOf_reverse l a ia hnd ha
  have hrb := listIndexOf_reverse l b ib hnd hb
  have hba := listIndexOf_lt_length a l ia ha
  have hbb := listIndexOf_lt_length b l ib hb
  rw [qualityRank, qualityRank, hra, hrb]
  show ((l.length - 1 - ib : Nat) : Int) < ((l.length - 1 - ia : Nat) : Int)
  have : l.length - 1 - ib < l.length - 1 - ia := by omega
  exact_mod_cast this

theorem foldl_mergeStep_closed (lang : String) (pf : PyDict PyValue)
    (ev : String → String → Response → InfoResult) (qs : List (String × Response)) :
    ∀ r0 : InfoResult,
      (qs.map (fun q => (q.1, some q.2))).foldl (mergeStep lang pf ev) (some r0) =
        some { fields := r0.fields,
               formats := r0.formats ++ flatMapL (stampedFormats lang pf ev) qs,
               subtitles := mergedSubtitles lang ev qs r0.subtitles } := by
  induction qs with
  | nil => intro r0; simp [flatMapL, mergedSubtitles]
  | cons q tl ih =>
    intro r0
    rw [List.map_cons, List.foldl_cons]
    rw [show mergeStep lang pf ev (some r0) (q.1, some q.2) =
        some { fields := r0.fields,
               formats := r0.formats ++ stampedFormats lang pf ev q,
               subtitles := dictUpdate r0.subtitles (ev lang q.1 q.2).subtitles }
      from rfl]
    rw [ih]
    simp [flatMapL_cons, mergedSubtitles, List.append_assoc]

theorem dictGet?_foldl_update {α : Type} (sub : α → PyDict PyValue) (l : List α) :
    ∀ (s0 : PyDict PyValue) (k : String), (∀ a ∈ l, DictWF (sub a)) →
      dictGet? (l.foldl (fun acc a => dictUpdate acc (sub a)) s0) k =
        match (l.filter (fun a => (dictGet? (sub a) k).isSome)).getLast? with
        | some a => dictGet? (sub a) k
        | none => dictGet? s0 k := by
  induction l with
  | nil => intro s0 k h; simp
  | cons a tl ih =>
    intro s0 k h
    rw [List.foldl_cons, ih _ k (fun b hb => h b (List.mem_cons_of_mem a hb)),
      List.filter_cons]
    by_cases hk : (dictGet? (sub a) k).isSome
    · rw [if_pos hk]
      cases hft : tl.filter (fun a => (dictGet? (sub a) k).isSome) with
      | nil =>
        have hupd := dictGet?_update s0 (sub a) k (h a (List.mem_cons_self a tl))
        cases hv : dictGet? (sub a) k with
        | none => rw [hv] at hk; simp at hk
        | some v =>
          rw [hv] at hupd
          simp [hupd, hv]
      | cons b bs =>
        cases hbl : (b :: bs).getLast? with
        | none => rw [List.getLast?_eq_none_iff] at hbl; exact absurd hbl (by simp)
        | some c => rw [List.getLast?_cons_cons, hbl]
    · rw [if_neg hk]
      cases hft : tl.filter (fun a => (dictGet? (sub a) k).isSome) with
      | nil =>
        have hupd := dictGet?_update s0 (sub a) k (h a (List.mem_cons_self a tl))
        cases hv : dictGet? (sub a) k with
        | some v => rw [hv] at hk; simp at hk
        | none =>
          rw [hv] at hupd
          simp [hupd]
      | cons b bs =>
        cases hbl : (b :: bs).getLast? with
        | none => rw [List.getLast?_eq_none_iff] at hbl; exact absurd hbl (by simp)
        | some c => rfl

theorem versionDifferences_wf (b c : PyDict PyValue) (h : DictWF c) :
    DictWF (versionDifferences b c) :=
  dictWF_filter _ _ (dictWF_filter _ _ h)

theorem mem_hashableItems (b : PyDict PyValue) (p : String × PyValue) :
    p ∈ hashableItems b ↔ p ∈ b ∧ hashableV p.2 = true := by
  simp [hashableItems, List.mem_filter]

theorem mem_versionDifferences (b c : PyDict PyValue) (p : String × PyValue) :
    p ∈ versionDifferences b c ↔
      p ∈ c ∧ hashableV p.2 = true ∧ p ∉ hashableItems b := by
  rw [versionDifferences, List.mem_filter, mem_hashableItems]
  simp [and_assoc]

theorem dictGet?_versionDifferences (b c : PyDict PyValue) (k : String) (v : PyValue)
    (hwb : DictWF b) (hwc : DictWF c) :
    dictGet? (versionDifferences b c) k = some v ↔
      dictGet? c k = some v ∧ hashableV v = true ∧ dictGet? b k ≠ some v := by
  rw [dictGet?_eq_some_iff_mem _ _ _ (versionDifferences_wf b c hwc),
    mem_versionDifferences]
  constructor
  · rintro ⟨hc, hh, hnb⟩
    refine ⟨(dictGet?_eq_some_iff_mem c k v hwc).2 hc, hh, ?_⟩
    intro hb
    apply hnb
    rw [mem_hashableItems]
    exact ⟨(dictGet?_eq_some_iff_mem b k v hwb).1 hb, hh⟩
  · rintro ⟨hc, hh, hnb⟩
    refine ⟨(dictGet?_eq_some_iff_mem c k v hwc).1 hc, hh, ?_⟩
    intro hmem
    rw [mem_hashableItems] at hmem
    exact hnb ((dictGet?_eq_some_iff_mem b k v hwb).2 hmem.1)

theorem versionDifferences_not_hashable (b c : PyDict PyValue) (k : String)
    (v : PyValue) (hwc : DictWF c) (hv : dictGet? c k = some v)
    (hnh : hashableV v = false) :
    dictGet? (versionDifferences b c) k = none := by
  cases hd : dictGet? (versionDifferences b c) k with
  | none => rfl
  | some w =>
    exfalso
    rw [dictGet?_eq_some_iff_mem _ _ _ (versionDifferences_wf b c hwc),
      mem_versionDifferences] at hd
    have hw : dictGet? c k = some w := (dictGet?_eq_some_iff_mem c k w hwc).2 hd.1
    rw [hv] at hw
    have hvw : v = w := Option.some.inj hw
    rw [← hvw] at hd
    rw [hnh] at hd
    simp at hd

theorem tagFormat_quality (al : Option String) (q : Int) (f : Fmt) :
    dictGet? (tagFormat al q f) "quality" = some (PyValue.vint q) := by
  rw [tagFormat]
  exact dictGet?_set_self _ _ _

theorem tagFormat_acodec (al : Option String) (q : Int) (f : Fmt) :
    dictGet? (tagFormat al q f) "acodec" = dictGet? f "acodec" := by
  rw [tagFormat, dictGet?_set_ne _ _ _ _ (by decide)]
  by_cases h : dictGet? f "acodec" = some (PyValue.vstr "none")
  · rw [if_pos h]
  · rw [if_neg h, dictGet?_set_ne _ _ _ _ (by decide)]

theorem tagFormat_language (al : Option String) (q : Int) (f : Fmt) :
    dictGet? (tagFormat al q f) "language" =
      if dictGet? f "acodec" = some (PyValue.vstr "none") then dictGet? f "language"
      else some (localeValue al) := by
  rw [tagFormat, dictGet?_set_ne _ _ _ _ (by decide)]
  by_cases h : dictGet? f "acodec" = some (PyValue.vstr "none")
  · rw [if_pos h, if_pos h]
  · rw [if_neg h, if_neg h, dictGet?_set_self]

theorem mergeResults_multi (lang iid : String) (p1 p2 : String × Option Response)
    (ps : List (String × Option Response))
    (ev : String → String → Response → InfoResult) :
    mergeResults lang iid (p1 :: p2 :: ps) ev =
      match pickPrimary iid (p1 :: p2 :: ps) with
      | none => none
      | some (pid, presp, rest) =>
        rest.foldl (mergeStep lang (ev lang pid presp).fields ev)
          (some (ev lang pid presp)) := by
  cases p1 with
  | mk v1 o1 => cases o1 <;> rfl

/-- C4: if exactly one version survives fetching, the merge step returns that
version's transform unmodified; no diff fields are attached to any format
entry and no merge processing occurs. -/
theorem c4_single_version_identity (lang iid tid : String) (tr : Response)
    (ev : String → String → Response → InfoResult) :
    mergeResults lang iid [(tid, some tr)] ev = some (ev lang tid tr) := rfl

/-- C10: a version descriptor with a falsy id contributes no table rows, a
descriptor with an id but no language information contributes exactly one row
with the Unknown (`none`) language, the Default-sentinel row for the requested
id is always the last row, and every row's id is the requested id or a
non-empty descriptor guid. -/
theorem c10_lang_table_shape (iid : String) (vs : List VersionDescriptor) :
    (∀ d : VersionDescriptor, (d.guid = none ∨ d.guid = some "") →
        descriptorRows d = []) ∧
    (∀ (d : VersionDescriptor) (g : String), d.guid = some g → g ≠ "" →
        get_audio_langs_from_data d = [] →
        descriptorRows d = [(g, (none : Option String))]) ∧
    (buildLangTable iid vs).getLast? = some (iid, some defaultLang) ∧
    (∀ p ∈ buildLangTable iid vs,
        p.1 = iid ∨ (p.1 ≠ "" ∧ ∃ d ∈ vs, d.guid = some p.1)) := by
  refine ⟨?_, ?_, ?_, ?_⟩
  · intro d h
    rcases h with h | h <;> simp [descriptorRows, h]
  · intro d g hg hne hlangs
    simp [descriptorRows, hg, hne, hlangs]
  · rw [buildLangTable, List.getLast?_concat]
  · intro p hp
    rw [buildLangTable, List.mem_append] at hp
    rcases hp with hp | hp
    · right
      rw [mem_flatMapL] at hp
      obtain ⟨d, hd, hpd⟩ := hp
      obtain ⟨og, als, al⟩ := d
      cases og with
      | none => simp [descriptorRows] at hpd
      | some g =>
        by_cases hne : g = ""
        · subst hne
          simp [descriptorRows] at hpd
        · cases hl : get_audio_langs_from_data ⟨some g, als, al⟩ with
          | nil =>
            rw [show descriptorRows ⟨some g, als, al⟩ = [(g, (none : Option String))]
              from by simp [descriptorRows, hl, hne]] at hpd
            rw [List.mem_singleton] at hpd
            rw [hpd]
            exact ⟨hne, ⟨⟨some g, als, al⟩, hd, rfl⟩⟩
          | cons x xs =>
            rw [show descriptorRows ⟨some g, als, al⟩ =
                (x :: xs).map (fun l => (g, some l))
              from by simp [descriptorRows, hl, hne]] at hpd
            rw [List.mem_map] at hpd
            obtain ⟨l, _, hpl⟩ := hpd
            rw [← hpl]
            exact ⟨hne, ⟨⟨some g, als, al⟩, hd, rfl⟩⟩
    · left
      simp only [List.mem_singleton] at hp
      rw [hp]

/-- C10 witness: a descriptor with no id yields no rows, a descriptor with an
id and no languages yields one Unknown row, and the Default row is last. -/
theorem c10_witness :
    descriptorRows ⟨none, [], none⟩ = [] ∧
    descriptorRows ⟨some "g", [], none⟩ = [("g", (none : Option String))] ∧
    (buildLangTable "V0" [⟨some "g", ["ja-jp"], none⟩]).getLast? =
      some ("V0", some defaultLang) := by
  refine ⟨?_, ?_, ?_⟩
  · exact (c10_lang_table_shape "V0" []).1 ⟨none, [], none⟩ (Or.inl rfl)
  · exact (c10_lang_table_shape "V0" []).2.1 ⟨some "g", [], none⟩ "g" rfl (by decide) rfl
  · exact (c10_lang_table_shape "V0" [⟨some "g", ["ja-jp"], none⟩]).2.2.1

theorem pickPrimary_of_get_none (iid : String) (responses : PyDict (Option Response))
    (h : dictGet? responses iid = none) :
    pickPrimary iid responses =
      match (dictRemove responses iid).getLast? with
      | some (vid, some r) => some (vid, r, (dictRemove responses iid).dropLast)
      | _ => none := by
  rw [pickPrimary, h]

/-- C8: when merging, the primary is the version whose id equals the
originally requested id whenever that id maps to a fetched response, and
otherwise the last remaining entry, which is a member of the dict. -/
theorem c8_primary_choice (iid : String) (responses : PyDict (Option Response)) :
    (∀ r : Response, dictGet? responses iid = some (some r) →
        pickPrimary iid responses = some (iid, r, dictRemove responses iid)) ∧
    (∀ (vid : String) (r : Response), dictGet? responses iid = none →
        responses.getLast? = some (vid, some r) →
        pickPrimary iid responses = some (vid, r, responses.dropLast) ∧
          (vid, some r) ∈ responses) := by
  constructor
  · intro r h
    rw [pickPrimary, h]
  · intro vid r hnone hlast
    have hrem : dictRemove responses iid = responses := dictRemove_of_not_mem _ _ hnone
    constructor
    · rw [pickPrimary_of_get_none iid responses hnone, hrem, hlast]
    · exact mem_of_getLast?_eq _ _ hlast

/-- C8 witness: with the requested id present the primary is that id; with it
absent the primary is the last entry. -/
theorem c8_witness :
    pickPrimary "A" [("B", some ⟨[], 2⟩), ("A", some ⟨[], 1⟩)] =
      some ("A", ⟨[], 1⟩, [("B", some ⟨[], 2⟩)]) ∧
    pickPrimary "Z" [("B", some ⟨[], 2⟩), ("A", some ⟨[], 1⟩)] =
      some ("A", ⟨[], 1⟩, [("B", some ⟨[], 2⟩)]) := by
  constructor
  · exact (c8_primary_choice "A" [("B", some ⟨[], 2⟩), ("A", some ⟨[], 1⟩)]).1 ⟨[], 1⟩ rfl
  · exact ((c8_primary_choice "Z"
      [("B", some ⟨[], 2⟩), ("A", some ⟨[], 1⟩)]).2 "A" ⟨[], 1⟩ rfl rfl).1

/-- C1: evaluation of the resolution pipeline at a failing input.  The id `V1`
is selected, its fetch returns not-found, and `_get_responses_for_langs`
nevertheless stores `results[vid] = None`, so the supposedly excluded version
reaches the merge step as a `None` response: the non-empty dict skips the
fatal 'no requested audio language available' check and `extract_version`
then crashes on the `None` response instead of the claimed behavior (drop the
version, find the set empty, raise the fatal error). -/
theorem c1_notfound_not_excluded :
    get_responses_for_langs "V0" c1Fetch c1Sel =
      some [("V1", (none : Option Response))] ∧
    real_extract_core "" "V0" c1Fetch c1Sel c1Ev = Outcome.crash := ⟨rfl, rfl⟩

/-- C2 counterexample: two requested stream types, each with one untagged
stream.  Under the claimed key `(case-folded hardsub language, stream type)`
the two descriptors have distinct keys and both would be kept; the code keys
by the raw hardsub language alone, so the later `bhls` descriptor overwrites
the earlier `ahls` one and the `u1` delivery URL is lost. -/
theorem c2_counterexample :
    availableFormats ["ahls", "bhls"]
        [("ahls", [⟨none, "u1"⟩]), ("bhls", [⟨none, "u2"⟩])] =
      [("", ⟨"bhls", "bhls", "", "u2"⟩)] ∧
    ∀ p ∈ availableFormats ["ahls", "bhls"]
        [("ahls", [⟨none, "u1"⟩]), ("bhls", [⟨none, "u2"⟩])], p.2.url ≠ "u1" := by
  exact ⟨rfl, by decide⟩

/-- C2 (amended): format extraction keeps only descriptors of requested
stream types with a non-empty delivery URL and deduplicates them keyed by the
raw hardsub language alone (not case-folded and without the stream type in
the key); on a key collision the descriptor occurring later in manifest order
overwrites the earlier one. -/
theorem c2_dedup_by_raw_hardsub (requested : List String)
    (sl : List (String × List StreamItem)) :
    (∀ k : String,
      dictGet? (availableFormats requested sl) k =
        match ((survivingStreams requested sl).filter
            (fun q => decide (hardsubOf q.2 = k))).getLast? with
        | some q => some (availEntry q.1 q.2)
        | none => none) ∧
    (∀ q ∈ survivingStreams requested sl, q.1 ∈ requested ∧ q.2.url ≠ "") := by
  exact ⟨fun k => dictGet?_availableFormats requested sl k,
    fun q hq => mem_survivingStreams requested sl q hq⟩

/-- C2 witness: on a one-descriptor manifest the characterization evaluates to
the stored entry, and the surviving descriptor is of a requested type. -/
theorem c2_dedup_by_raw_hardsub_witness :
    dictGet? (availableFormats ["ahls"] [("ahls", [⟨none, "u1"⟩])]) "" =
      some ⟨"ahls", "ahls", "", "u1"⟩ ∧
    ("ahls", (⟨none, "u1"⟩ : StreamItem)).1 ∈ ["ahls"] := by
  constructor
  · rw [(c2_dedup_by_raw_hardsub ["ahls"] [("ahls", [⟨none, "u1"⟩])]).1 ""]
    rfl
  · exact ((c2_dedup_by_raw_hardsub ["ahls"] [("ahls", [⟨none, "u1"⟩])]).2
      ("ahls", ⟨none, "u1"⟩) (by decide)).1

/-- C9: every rendition whose declared audio codec is not the literal string
`none` (including renditions carrying no acodec field at all) is tagged with
the manifest's audio locale; a rendition explicitly marked `acodec = 'none'`
gets no tag and keeps the language field of the underlying resolved format. -/
theorem c9_audio_language_tagging (cfg : Cfg) (resp : StreamResponse) :
    ∀ g ∈ extract_formats cfg resp,
      (dictGet? g "acodec" ≠ some (PyValue.vstr "none") →
          dictGet? g "language" = some (localeValue resp.audio_locale)) ∧
      (dictGet? g "acodec" = some (PyValue.vstr "none") →
          ∃ f0 : Fmt, dictGet? g "language" = dictGet? f0 "language" ∧
            dictGet? f0 "acodec" = some (PyValue.vstr "none") ∧
            ∃ e : AvailEntry, g = tagFormat resp.audio_locale (entryQuality cfg e) f0) := by
  intro g hg
  rw [extract_formats, mem_flatMapL] at hg
  obtain ⟨e, he, hge⟩ := hg
  rw [entryFormats, List.mem_map] at hge
  obtain ⟨f0, hf0, hgf⟩ := hge
  subst hgf
  constructor
  · intro hac
    rw [tagFormat_acodec] at hac
    rw [tagFormat_language, if_neg hac]
  · intro hac
    rw [tagFormat_acodec] at hac
    refine ⟨f0, ?_, hac, ⟨e, rfl⟩⟩
    rw [tagFormat_language, if_pos hac]

/-- C9 witness: in a manifest declaring `ja-JP` audio, the rendition with a
real audio codec carries the manifest language tag. -/
theorem c9_audio_language_tagging_witness :
    dictGet? [("acodec", PyValue.vstr "aac"), ("language", PyValue.vstr "ja-JP"),
      ("quality", PyValue.vint 0)] "language" = some (localeValue (some "ja-JP")) := by
  exact (c9_audio_language_tagging c9Cfg c9Resp
    [("acodec", PyValue.vstr "aac"), ("language", PyValue.vstr "ja-JP"),
     ("quality", PyValue.vint 0)]
    (by decide)).1 (by decide)

/-- C6: every extracted rendition carries the quality rank of its source
entry's case-folded hardsub language in the reversed requested-hardsub list;
for a duplicate-free requested list an earlier-requested language ranks
strictly higher than a later-requested one, an unrequested language ranks
`-1`, and every requested language ranks at least `0`. -/
theorem c6_quality_rank (cfg : Cfg) (resp : StreamResponse) :
    (∀ g ∈ extract_formats cfg resp, ∃ e : AvailEntry,
        e ∈ (availableFormats (requestedFormats cfg) resp.streams).map Prod.snd ∧
        dictGet? g "quality" =
          some (PyValue.vint (qualityRank (requestedHardsubs cfg).reverse
            (strLower e.hardsub_lang)))) ∧
    (∀ (l : List String) (a b : String) (ia ib : Nat), l.Nodup →
        listIndexOf a l = some ia → listIndexOf b l = some ib → ia < ib →
        qualityRank l.reverse b < qualityRank l.reverse a) ∧
    (∀ (l : List String) (x : String), x ∉ l → qualityRank l.reverse x = -1) ∧
    (∀ (l : List String) (x : String), x ∈ l → 0 ≤ qualityRank l.reverse x) := by
  refine ⟨?_, ?_, ?_, ?_⟩
  · intro g hg
    rw [extract_formats, mem_flatMapL] at hg
    obtain ⟨e, he, hge⟩ := hg
    rw [entryFormats, List.mem_map] at hge
    obtain ⟨f0, _, hgf⟩ := hge
    subst hgf
    exact ⟨e, he, by rw [tagFormat_quality]; rfl⟩
  · exact fun l a b ia ib hnd ha hb hij =>
      qualityRank_earlier_gt l a b ia ib hnd ha hb hij
  · exact fun l x h => qualityRank_lowest l x h
  · exact fun l x h => qualityRank_nonneg_of_mem l x h

/-- C6 witness: with requested list `[x, y]` the earlier-requested `x`
outranks `y`, and an extracted concrete rendition carries its entry's rank. -/
theorem c6_quality_rank_witness :
    qualityRank ["x", "y"].reverse "y" < qualityRank ["x", "y"].reverse "x" ∧
    (∃ e : AvailEntry,
        e ∈ (availableFormats (requestedFormats c9Cfg) c9Resp.streams).map Prod.snd ∧
        dictGet? [("acodec", PyValue.vstr "aac"), ("language", PyValue.vstr "ja-JP"),
          ("quality", PyValue.vint 0)] "quality" =
          some (PyValue.vint (qualityRank (requestedHardsubs c9Cfg).reverse
            (strLower e.hardsub_lang)))) := by
  constructor
  · exact (c6_quality_rank c9Cfg c9Resp).2.1 ["x", "y"] "x" "y" 0 1
      (by decide) rfl rfl (by decide)
  · exact (c6_quality_rank c9Cfg c9Resp).1
      [("acodec", PyValue.vstr "aac"), ("language", PyValue.vstr "ja-JP"),
       ("quality", PyValue.vint 0)] (by decide)

/-- C3 counterexample: an untagged stream is present and the requested
hardsub set is the non-wildcard default, so the claim requires every other
available hardsub language to yield exactly one coarse rendition; the
available `en-us` entry is of a DASH stream type and is fully resolved into
two renditions instead. -/
theorem c3_counterexample :
    (dictGet? (availableFormats (requestedFormats c3Cfg) c3Resp.streams)
      "").isSome = true ∧
    "all" ∉ requestedHardsubs c3Cfg ∧
    dictGet? (availableFormats (requestedFormats c3Cfg) c3Resp.streams) "en-us" =
      some ⟨"xdash", "xdash-hardsub-en-us", "en-us", "u1"⟩ ∧
    strLower "en-us" ∉ requestedHardsubs c3Cfg ∧
    (entryFormats c3Cfg c3Resp
      ⟨"xdash", "xdash-hardsub-en-us", "en-us", "u1"⟩).length = 2 := by
  exact ⟨rfl, by decide, rfl, by decide, rfl⟩

/-- C3 (amended): the full-expansion/coarse dichotomy governs the HLS-type
entries only.  When an untagged stream is available and the wildcard was not
requested, an HLS entry is fully resolved exactly when its case-folded
hardsub language is in the requested set and otherwise yields exactly one
coarse meta format; when no untagged stream is available every HLS entry is
fully resolved regardless of the requested set.  A DASH-type entry is always
fully resolved, and `extract_formats` is the concatenation of the
per-entry expansions over the available-format values. -/
theorem c3_expansion_rule (cfg : Cfg) (resp : StreamResponse) (k : String)
    (e : AvailEntry)
    (he : dictGet? (availableFormats (requestedFormats cfg) resp.streams) k = some e) :
    (strEndsWith e.stream_type "hls" = true →
      (dictGet? (availableFormats (requestedFormats cfg) resp.streams) "").isSome = true →
      "all" ∉ requestedHardsubs cfg →
      entryFormats cfg resp e =
        (if strLower e.hardsub_lang ∈ requestedHardsubs cfg then
          cfg.resolveHls e.url e.format_id
         else [cfg.metaFormat e.url e.format_id]).map
          (tagFormat resp.audio_locale (entryQuality cfg e))) ∧
    (strEndsWith e.stream_type "hls" = true →
      (dictGet? (availableFormats (requestedFormats cfg) resp.streams) "").isSome = false →
      entryFormats cfg resp e =
        (cfg.resolveHls e.url e.format_id).map
          (tagFormat resp.audio_locale (entryQuality cfg e))) ∧
    (strEndsWith e.stream_type "hls" = false →
      strEndsWith e.stream_type "dash" = true →
      entryFormats cfg resp e =
        (cfg.resolveDash e.url e.format_id).map
          (tagFormat resp.audio_locale (entryQuality cfg e))) ∧
    extract_formats cfg resp =
      flatMapL (entryFormats cfg resp)
        ((availableFormats (requestedFormats cfg) resp.streams).map Prod.snd) := by
  refine ⟨?_, ?_, ?_, rfl⟩
  · intro hhls huntag hall
    rw [entryFormats]
    congr 1
    have hfl : fullFormatLangs (requestedHardsubs cfg)
        (availableFormats (requestedFormats cfg) resp.streams) =
        requestedHardsubs cfg := by
      rw [fullFormatLangs, if_pos ⟨huntag, hall⟩]
    rw [expandRaw, if_pos hhls, hfl]
  · intro hhls huntag
    rw [entryFormats]
    congr 1
    rw [expandRaw, if_pos hhls]
    have hfl : fullFormatLangs (requestedHardsubs cfg)
        (availableFormats (requestedFormats cfg) resp.streams) =
        ((availableFormats (requestedFormats cfg) resp.streams).map Prod.fst).map
          strLower := by
      rw [fullFormatLangs, if_neg]
      intro hc
      rw [huntag] at hc
      exact absurd hc.1 (by simp)
    rw [hfl]
    have hkey := (availEntry_of_get _ _ k e he).1
    have hmem := mem_keys_of_get _ k e he
    rw [if_pos (show strLower e.hardsub_lang ∈
        ((availableFormats (requestedFormats cfg) resp.streams).map Prod.fst).map strLower
      from by rw [hkey]; exact List.mem_map_of_mem strLower hmem)]
  · intro hnh hdash
    rw [entryFormats]
    congr 1
    rw [expandRaw, if_neg (by rw [hnh]; exact Bool.false_ne_true), if_pos hdash]

/-- C3 witness: the untagged HLS entry of the C3 scenario is in the requested
set, so it is fully resolved into the adaptive playlist's renditions. -/
theorem c3_expansion_rule_witness :
    entryFormats c3Cfg c3Resp ⟨"xhls", "xhls", "", "u0"⟩ =
      [[("src", PyValue.vstr "u0"), ("language", PyValue.vnull),
        ("quality", PyValue.vint 0)]] := by
  have h := (c3_expansion_rule c3Cfg c3Resp "" ⟨"xhls", "xhls", "", "u0"⟩ rfl).1
    rfl rfl (by decide)
  rw [h]
  rfl

/-- C5: merging multiple versions stamps every format entry of each
non-primary version with exactly the version differences against the main
result, and leaves the primary's formats unmodified; the differences are
exactly the hashable (field, value) pairs of the candidate that are absent
from or different in the baseline, a non-hashable (structured) candidate
value is never stamped, and stamping a format overrides exactly the diff
keys. -/
theorem c5_diff_stamping (lang iid : String)
    (ev : String → String → Response → InfoResult)
    (p1 p2 : String × Option Response) (ps : List (String × Option Response))
    (pid : String) (presp : Response) (rest : PyDict (Option Response))
    (restPairs : List (String × Response))
    (hpick : pickPrimary iid (p1 :: p2 :: ps) = some (pid, presp, rest))
    (hrest : rest = restPairs.map (fun q => (q.1, some q.2))) :
    mergeResults lang iid (p1 :: p2 :: ps) ev =
      some { fields := (ev lang pid presp).fields,
             formats := (ev lang pid presp).formats ++
               flatMapL (stampedFormats lang (ev lang pid presp).fields ev) restPairs,
             subtitles := mergedSubtitles lang ev restPairs
               (ev lang pid presp).subtitles } ∧
    (∀ (b c : PyDict PyValue) (k : String) (v : PyValue), DictWF b → DictWF c →
        (dictGet? (versionDifferences b c) k = some v ↔
          dictGet? c k = some v ∧ hashableV v = true ∧ dictGet? b k ≠ some v)) ∧
    (∀ (b c : PyDict PyValue) (k : String) (v : PyValue), DictWF c →
        dictGet? c k = some v → hashableV v = false →
        dictGet? (versionDifferences b c) k = none) ∧
    (∀ (f diffs : PyDict PyValue) (k : String), DictWF diffs →
        dictGet? (dictUpdate f diffs) k =
          match dictGet? diffs k with
          | some v => some v
          | none => dictGet? f k) := by
  refine ⟨?_, ?_, ?_, ?_⟩
  · rw [mergeResults_multi, hpick]
    show rest.foldl (mergeStep lang (ev lang pid presp).fields ev)
      (some (ev lang pid presp)) = _
    rw [hrest]
    exact foldl_mergeStep_closed lang (ev lang pid presp).fields ev restPairs
      (ev lang pid presp)
  · exact fun b c k v hwb hwc => dictGet?_versionDifferences b c k v hwb hwc
  · exact fun b c k v hwc hv hnh => versionDifferences_not_hashable b c k v hwc hv hnh
  · intro f diffs k hwf
    rw [dictGet?_update f diffs k hwf]
    cases dictGet? diffs k <;> rfl

/-- C5 witness: merging versions `A` (primary) and `B` stamps `B`'s format
with the differing `id` and `n` fields and leaves `A`'s format untouched. -/
theorem c5_diff_stamping_witness :
    mergeResults "" "A" [("A", some ⟨[], 1⟩), ("B", some ⟨[], 2⟩)] c5Ev =
      some ⟨[("id", PyValue.vstr "A"), ("n", PyValue.vint 1)],
            [[("u", PyValue.vstr "A")],
             [("u", PyValue.vstr "B"), ("id", PyValue.vstr "B"),
              ("n", PyValue.vint 2)]],
            [("loc", PyValue.vstr "B")]⟩ := by
  have h := (c5_diff_stamping "" "A" c5Ev ("A", some ⟨[], 1⟩) ("B", some ⟨[], 2⟩) []
    "A" ⟨[], 1⟩ [("B", some ⟨[], 2⟩)] [("B", ⟨[], 2⟩)] rfl rfl).1
  rw [h]
  rfl

/-- C7: merging multiple versions concatenates all non-primary format lists
onto the baseline's and unions all subtitle maps onto the baseline's with
last-write-wins semantics: a locale resolves to the last merged version whose
subtitle map carries it, and otherwise to the baseline's entry. -/
theorem c7_concat_and_lww (lang iid : String)
    (ev : String → String → Response → InfoResult)
    (p1 p2 : String × Option Response) (ps : List (String × Option Response))
    (pid : String) (presp : Response) (rest : PyDict (Option Response))
    (restPairs : List (String × Response))
    (hpick : pickPrimary iid (p1 :: p2 :: ps) = some (pid, presp, rest))
    (hrest : rest = restPairs.map (fun q => (q.1, some q.2)))
    (hwfs : ∀ q ∈ restPairs, DictWF (ev lang q.1 q.2).subtitles) :
    mergeResults lang iid (p1 :: p2 :: ps) ev =
      some { fields := (ev lang pid presp).fields,
             formats := (ev lang pid presp).formats ++
               flatMapL (stampedFormats lang (ev lang pid presp).fields ev) restPairs,
             subtitles := mergedSubtitles lang ev restPairs
               (ev lang pid presp).subtitles } ∧
    (∀ k : String,
      dictGet? (mergedSubtitles lang ev restPairs (ev lang pid presp).subtitles) k =
        match (restPairs.filter
            (fun q => (dictGet? (ev lang q.1 q.2).subtitles k).isSome)).getLast? with
        | some q => dictGet? (ev lang q.1 q.2).subtitles k
        | none => dictGet? (ev lang pid presp).subtitles k) := by
  constructor
  · rw [mergeResults_multi, hpick]
    show rest.foldl (mergeStep lang (ev lang pid presp).fields ev)
      (some (ev lang pid presp)) = _
    rw [hrest]
    exact foldl_mergeStep_closed lang (ev lang pid presp).fields ev restPairs
      (ev lang pid presp)
  · intro k
    rw [mergedSubtitles]
    rw [dictGet?_foldl_update (fun q => (ev lang q.1 q.2).subtitles) restPairs
      (ev lang pid presp).subtitles k hwfs]
    cases (restPairs.filter
      (fun q => (dictGet? (ev lang q.1 q.2).subtitles k).isSome)).getLast? <;> rfl

/-- C7 witness: on a shared locale key the later-merged version `B` overwrites
the baseline's subtitle entry. -/
theorem c7_concat_and_lww_witness :
    dictGet? (mergedSubtitles "" c5Ev [("B", ⟨[], 2⟩)]
      (c5Ev "" "A" ⟨[], 1⟩).subtitles) "loc" = some (PyValue.vstr "B") := by
  rw [(c7_concat_and_lww "" "A" c5Ev ("A", some ⟨[], 1⟩) ("B", some ⟨[], 2⟩) []
    "A" ⟨[], 1⟩ [("B", some ⟨[], 2⟩)] [("B", ⟨[], 2⟩)] rfl rfl (by decide)).2 "loc"]
  rfl
